import Mathlib

/-!
Verification development for the compose-specification resolution engine of
`podman_compose.py`.  Each definition is a shallow embedding of the Python
function it is named after; theorems settle the specification claims.
-/

namespace PodmanCompose

/-! ### Variable substitution engine (`var_re` and `rec_subs`, string case)

The Python regex `var_re` matches, left to right and non-overlapping:
a doubled dollar (escape), a bare `$NAME`, or a braced form holding a name
followed by an optional operator: an optional colon and then either a dash
with a default text or a question mark with an error text.  Text where no
alternative matches is left as-is.  We embed the scan as a tokenizer over
character lists (the scan does not depend on the environment), then render
tokens under an environment, mirroring the Python `convert` callback.
-/

/-- A variable environment: name to optional string value
(`subs_dict.get(name)` in the Python). -/
def Env : Type := String → Option String

/-- The operator part of a braced variable form.
`colon` records whether the "treat empty as unset" colon was present. -/
inductive VarOp : Type where
  | plain : VarOp
  | dflt : Bool → List Char → VarOp
  | errop : Bool → List Char → VarOp
deriving Repr, DecidableEq

/-- One token of the scanned input: a literal character, an escaped dollar,
or a variable reference. -/
inductive Tok : Type where
  | lit : Char → Tok
  | dollar : Tok
  | var : String → VarOp → Tok
deriving Repr, DecidableEq

/-- First character of a Python identifier-like name: `[_a-zA-Z]`. -/
def isNameStart (c : Char) : Bool := c.isAlpha || c = '_'

/-- Subsequent characters of a name: `[_a-zA-Z0-9]`. -/
def isNameChar (c : Char) : Bool := isNameStart c || c.isDigit

/-- Greedily take a name `[_a-zA-Z][_a-zA-Z0-9]*` from the front;
fails when the first character is not a name start. -/
def takeName (l : List Char) : Option (String × List Char) :=
  match l with
  | [] => none
  | c :: rest =>
    if isNameStart c then
      some (String.mk (c :: rest.takeWhile isNameChar), rest.dropWhile isNameChar)
    else none

/-- Take characters up to the first closing brace, mirroring the regex
piece that matches any characters other than a closing brace followed by
a mandatory closing brace; fails when no closing brace occurs. -/
def takeUntilRBrace (l : List Char) : Option (List Char × List Char) :=
  match l with
  | [] => none
  | c :: rest =>
    if c = '\x7d' then some ([], rest)
    else match takeUntilRBrace rest with
      | some (d, r) => some (c :: d, r)
      | none => none

/-- Parse the inside of a braced form (input starts right after the
opening brace): a name, then an optional operator, then the closing
brace.  Returns the parsed variable and the remaining input, or `none`
when the regex alternative fails (in which case the scan leaves the
dollar sign as literal text). -/
def parseBraced (l : List Char) : Option (String × VarOp × List Char) :=
  match takeName l with
  | none => none
  | some (name, rest) =>
    match rest with
    | '\x7d' :: r => some (name, VarOp.plain, r)
    | ':' :: '-' :: r =>
      match takeUntilRBrace r with
      | some (d, r') => some (name, VarOp.dflt true d, r')
      | none => none
    | ':' :: '?' :: r =>
      match takeUntilRBrace r with
      | some (e, r') => some (name, VarOp.errop true e, r')
      | none => none
    | '-' :: r =>
      match takeUntilRBrace r with
      | some (d, r') => some (name, VarOp.dflt false d, r')
      | none => none
    | '?' :: r =>
      match takeUntilRBrace r with
      | some (e, r') => some (name, VarOp.errop false e, r')
      | none => none
    | _ => none

/-- One scanning step: from the front of the input, produce the next token
and the remaining input.  A dollar sign that heads no successful match is
emitted as a literal, as `re.sub` leaves unmatched text untouched. -/
def scanStep (l : List Char) : Tok × List Char :=
  match l with
  | [] => (Tok.dollar, [])
  | '$' :: rest =>
    match rest with
    | '$' :: r => (Tok.dollar, r)
    | '\x7b' :: r =>
      match parseBraced r with
      | some (n, op, r') => (Tok.var n op, r')
      | none => (Tok.lit '$', rest)
    | _ =>
      match takeName rest with
      | some (nm, r') => (Tok.var nm VarOp.plain, r')
      | none => (Tok.lit '$', rest)
  | c :: rest => (Tok.lit c, rest)

/-- Fuelled scanning loop; each step consumes at least one character, so
fuel equal to the input length is always sufficient. -/
def scanGo (fuel : Nat) (l : List Char) : List Tok :=
  match fuel with
  | 0 => []
  | fuel + 1 =>
    match l with
    | [] => []
    | l => let (t, r) := scanStep l
           t :: scanGo fuel r

/-- Tokenize a whole character list with the regex scan of `var_re`. -/
def tokenize (l : List Char) : List Tok := scanGo l.length l

/-- Whether the operator carries the "empty counts as unset" colon
(the `empty` group of `var_re`). -/
def VarOp.hasColon : VarOp → Bool
  | VarOp.plain => false
  | VarOp.dflt c _ => c
  | VarOp.errop c _ => c

/-- The `convert` callback of `rec_subs`: look the name up, demote an
empty value to absent when the colon was present, then return the value,
raise the error text, or return the default (empty when no default). -/
def convert (env : Env) (name : String) (op : VarOp) : Except String (List Char) :=
  let value := env name
  let value := if value = some "" ∧ op.hasColon = true then none else value
  match value with
  | some v => Except.ok v.toList
  | none =>
    match op with
    | VarOp.errop _ e => Except.error (String.mk e)
    | VarOp.dflt _ d => Except.ok d
    | VarOp.plain => Except.ok []

/-- Render a token list under an environment, left to right; the first
raised error aborts the whole substitution, as an exception escaping
`re.sub` does. -/
def renderToks (env : Env) : List Tok → Except String (List Char)
  | [] => Except.ok []
  | Tok.lit c :: ts => (fun r => c :: r) <$> renderToks env ts
  | Tok.dollar :: ts => (fun r => '$' :: r) <$> renderToks env ts
  | Tok.var n op :: ts => do
    let s ← convert env n op
    let r ← renderToks env ts
    Except.ok (s ++ r)

/-- String-level `rec_subs`: the Python `value = var_re.sub(convert, value)`
branch for strings, with an exception modelled as `Except.error`. -/
def rec_subs_str (env : Env) (s : String) : Except String String :=
  (fun l => String.mk l) <$> renderToks env (tokenize s.toList)

/-! ### Specification documents

A document node is a scalar (string, integer, boolean or null), an ordered
sequence, or a string-keyed insertion-ordered mapping, mirroring the YAML
values `podman_compose.py` manipulates.  Mappings are association lists in
insertion order, as Python dictionaries preserve insertion order.
-/

/-- A JSON-like document value. -/
inductive Val : Type where
  | str : String → Val
  | int : Int → Val
  | bool : Bool → Val
  | null : Val
  | list : List Val → Val
  | map : List (String × Val) → Val
deriving Repr

/-- Dictionary lookup on an association list (first match). -/
def alookup {α : Type} (l : List (String × α)) (k : String) : Option α :=
  match l with
  | [] => none
  | (k', v) :: rest => if k' = k then some v else alookup rest k

/-- Python `key in dict`. -/
def hasKey {α : Type} (l : List (String × α)) (k : String) : Bool :=
  (alookup l k).isSome

/-- Python `dict[key] = v` on an existing key: replace in place, keeping
the insertion position; if the key is absent, append at the end. -/
def aupdate {α : Type} (l : List (String × α)) (k : String) (v : α) : List (String × α) :=
  match l with
  | [] => [(k, v)]
  | (k', v') :: rest => if k' = k then (k, v) :: rest else (k', v') :: aupdate rest k v

/-- Python `del dict[key]` when the key exists: drop the first binding. -/
def aremove {α : Type} (l : List (String × α)) (k : String) : List (String × α) :=
  match l with
  | [] => []
  | (k', v') :: rest => if k' = k then rest else (k', v') :: aremove rest k

/-! ### Document merge engine (`rec_merge_one`, `rec_merge`)

`rec_merge_one(target, source)` first copies the source keys absent from
the target (appended in source order), then walks the original target
keys that also occur in the source: `command`/`entrypoint` are replaced
outright, a source value that is not an instance of the target value's
type raises `ValueError`, two sequences are concatenated (with the
mount-target deduplication for the `volumes` key), two mappings recurse,
and anything else is overwritten by the source value.
-/

/-- Python `isinstance(value2, type(value))`, including the fact that
`bool` is a subclass of `int`. -/
def py_isinstance_type_of (v2 v : Val) : Bool :=
  match v, v2 with
  | Val.str _, Val.str _ => true
  | Val.int _, Val.int _ => true
  | Val.int _, Val.bool _ => true
  | Val.bool _, Val.bool _ => true
  | Val.null, Val.null => true
  | Val.list _, Val.list _ => true
  | Val.map _, Val.map _ => true
  | _, _ => false

/-- Python `":" in v` for the values a volumes sequence may hold: substring
test on a string, key test on a mapping, element test on a sequence; other
values raise `TypeError`. -/
def py_colon_in (v : Val) : Except String Bool :=
  match v with
  | Val.str s => Except.ok (s.toList.any fun c => c = ':')
  | Val.map m => Except.ok (hasKey m ":")
  | Val.list l =>
    Except.ok (l.any fun x => match x with
      | Val.str s => s = ":"
      | _ => false)
  | _ => Except.error "TypeError: argument is not iterable"

/-- Python `v.split(":", 2)[1]` for a string already known to hold a colon:
the text between the first colon and the following colon or the end. -/
def mount_target (s : String) : String :=
  String.mk (((s.toList.dropWhile (fun c => c ≠ ':')).drop 1).takeWhile (fun c => c ≠ ':'))

/-- The second segment of a volumes entry, used as deduplication key;
calling `.split` on a non-string raises `AttributeError`. -/
def mount_target_of (v : Val) : Except String String :=
  match v with
  | Val.str s => Except.ok (mount_target s)
  | _ => Except.error "AttributeError: no attribute split"

/-- The set of mount targets of the incoming volume entries
(`pts` in `rec_merge_one`). -/
def volume_targets : List Val → Except String (List String)
  | [] => Except.ok []
  | v :: rest => do
    let b ← py_colon_in v
    let ts ← volume_targets rest
    if b then do
      let t ← mount_target_of v
      Except.ok (t :: ts)
    else
      Except.ok ts

/-- Drop the target entries whose mount target occurs among the incoming
targets (`del_ls` handling in `rec_merge_one`). -/
def volume_dedup (pts : List String) : List Val → Except String (List Val)
  | [] => Except.ok []
  | v :: rest => do
    let b ← py_colon_in v
    let keep ←
      if b then do
        let t ← mount_target_of v
        Except.ok (!(pts.contains t))
      else
        Except.ok true
    let rest' ← volume_dedup pts rest
    Except.ok (if keep then v :: rest' else rest')

/-- The `volumes` special case: deduplicate the old entries by the incoming
mount targets, then append the incoming entries. -/
def volumes_merge (value value2 : List Val) : Except String (List Val) := do
  let pts ← volume_targets value2
  let kept ← volume_dedup pts value
  Except.ok (kept ++ value2)

mutual

/-- `rec_merge_one(target, source)`: result keeps the original target keys
in order (with merged values), followed by the source-only keys in source
order.  `ValueError` on a type mismatch is modelled as `Except.error`. -/
def rec_merge_one (target source : List (String × Val)) :
    Except String (List (String × Val)) :=
  match merge_entries source target with
  | Except.error e => Except.error e
  | Except.ok merged =>
    Except.ok (merged ++ source.filter fun kv => !(hasKey target kv.1))
termination_by (sizeOf target, 1)

/-- The walk over the original target entries of `rec_merge_one`: an entry
whose key does not occur in the source is kept unchanged, the others are
merged with the corresponding source value. -/
def merge_entries (source : List (String × Val)) (t : List (String × Val)) :
    Except String (List (String × Val)) :=
  match t with
  | [] => Except.ok []
  | (k, v) :: rest =>
    match
      (match alookup source k with
       | none => Except.ok v
       | some v2 => merge_value k v v2) with
    | Except.error e => Except.error e
    | Except.ok v' =>
      match merge_entries source rest with
      | Except.error e => Except.error e
      | Except.ok rest' => Except.ok ((k, v') :: rest')
termination_by (sizeOf t, 0)

/-- Merging the two values bound to one key present on both sides. -/
def merge_value (key : String) (v v2 : Val) : Except String Val :=
  if key = "command" ∨ key = "entrypoint" then Except.ok v2
  else if !(py_isinstance_type_of v2 v) then
    Except.error ("can't merge value of [" ++ key ++ "]")
  else
    match v, v2 with
    | Val.list a, Val.list b =>
      if key = "volumes" then Val.list <$> volumes_merge a b
      else Except.ok (Val.list (a ++ b))
    | Val.map a, Val.map b => Val.map <$> rec_merge_one a b
    | _, _ => Except.ok v2
termination_by (sizeOf v, 2)

end

/-- `merge_value` with the recursive case supplied as a closure, used by
the fuel-bounded evaluator `rec_merge_one_fuel`; `none` is fuel
exhaustion. -/
def merge_value_go
    (recur : List (String × Val) → List (String × Val) →
      Option (Except String (List (String × Val))))
    (key : String) (v v2 : Val) : Option (Except String Val) :=
  if key = "command" ∨ key = "entrypoint" then some (Except.ok v2)
  else if !(py_isinstance_type_of v2 v) then
    some (Except.error ("can't merge value of [" ++ key ++ "]"))
  else
    match v, v2 with
    | Val.list a, Val.list b =>
      if key = "volumes" then some (Val.list <$> volumes_merge a b)
      else some (Except.ok (Val.list (a ++ b)))
    | Val.map a, Val.map b => (recur a b).map (fun r => Val.map <$> r)
    | _, _ => some (Except.ok v2)

/-- `merge_entries` with the recursive case supplied as a closure. -/
def merge_entries_go
    (recur : List (String × Val) → List (String × Val) →
      Option (Except String (List (String × Val))))
    (source : List (String × Val)) :
    List (String × Val) → Option (Except String (List (String × Val)))
  | [] => some (Except.ok [])
  | (k, v) :: rest =>
    match
      (match alookup source k with
       | none => some (Except.ok v)
       | some v2 => merge_value_go recur k v v2) with
    | none => none
    | some (Except.error e) => some (Except.error e)
    | some (Except.ok v') =>
      match merge_entries_go recur source rest with
      | none => none
      | some (Except.error e) => some (Except.error e)
      | some (Except.ok rest') => some (Except.ok ((k, v') :: rest'))

/-- Fuel-bounded evaluator for `rec_merge_one`, structurally recursive so
that concrete merges reduce definitionally; `rec_merge_one_fuel_sound`
below ties it to `rec_merge_one`. -/
def rec_merge_one_fuel :
    Nat → List (String × Val) → List (String × Val) →
      Option (Except String (List (String × Val)))
  | 0, _, _ => none
  | fuel + 1, t, s =>
    match merge_entries_go (rec_merge_one_fuel fuel) s t with
    | none => none
    | some (Except.error e) => some (Except.error e)
    | some (Except.ok merged) =>
      some (Except.ok (merged ++ s.filter fun kv => !(hasKey t kv.1)))

/-- `rec_merge(target, *sources)` as used through `merge_all`: fold
`rec_merge_one` left to right starting from the given target. -/
def rec_merge (target : List (String × Val)) (sources : List (List (String × Val))) :
    Except String (List (String × Val)) :=
  sources.foldlM rec_merge_one target

/-- `merge_all(docs...)`: fold `rec_merge_one` left to right starting from
an empty target. -/
def merge_all (docs : List (List (String × Val))) :
    Except String (List (String × Val)) :=
  rec_merge [] docs

/-! ### Dependency conditions and edges

`ServiceDependencyCondition.from_value` accepts the canonical condition
names and three legacy aliases; anything else raises `ValueError`.
-/

/-- The recognized container lifecycle conditions. -/
inductive ServiceDependencyCondition : Type where
  | configured | created | exited | healthy | initialized | paused
  | removing | running | stopped | stopping | unhealthy
deriving Repr, DecidableEq

/-- `ServiceDependencyCondition.from_value`: canonical names first, then
the legacy aliases, else `ValueError`. -/
def from_value (value : String) : Except String ServiceDependencyCondition :=
  if value = "configured" then Except.ok ServiceDependencyCondition.configured
  else if value = "created" then Except.ok ServiceDependencyCondition.created
  else if value = "exited" then Except.ok ServiceDependencyCondition.exited
  else if value = "healthy" then Except.ok ServiceDependencyCondition.healthy
  else if value = "initialized" then Except.ok ServiceDependencyCondition.initialized
  else if value = "paused" then Except.ok ServiceDependencyCondition.paused
  else if value = "running" then Except.ok ServiceDependencyCondition.running
  else if value = "stopped" then Except.ok ServiceDependencyCondition.stopped
  else if value = "stopping" then Except.ok ServiceDependencyCondition.stopping
  else if value = "unhealthy" then Except.ok ServiceDependencyCondition.unhealthy
  else if value = "service_healthy" then Except.ok ServiceDependencyCondition.healthy
  else if value = "service_started" then Except.ok ServiceDependencyCondition.running
  else if value = "service_completed_successfully" then
    Except.ok ServiceDependencyCondition.stopped
  else Except.error ("Value is not a valid condition for a service dependency: " ++ value)

/-- A dependency edge: target service name and condition; equality is by
name and condition, as the Python `__eq__`/`__hash__` define. -/
structure ServiceDependency : Type where
  name : String
  condition : ServiceDependencyCondition
deriving Repr, DecidableEq

/-! ### Dependency graph builder (`flat_deps`, `rec_deps`)

The mutable `_deps` sets are modelled as a state mapping each service name
to its current edge list; a Python set is modelled as a duplicate-free
list in insertion order (set iteration order is unspecified in Python;
the properties proved below do not depend on it).  The unbounded recursion
of `rec_deps` is modelled with explicit fuel: a `none` result means the
fuel ran out, which on the Python side is a recursion that has not
terminated yet.
-/

/-- The `_deps` state: service name to current edge list. -/
abbrev DepState := List (String × List ServiceDependency)

/-- The current edge set of a service (empty for an unknown name). -/
def getDeps (st : DepState) (n : String) : List ServiceDependency :=
  (alookup st n).getD []

/-- Python `set.update`: add the new elements, keeping existing ones. -/
def unionDeps (a b : List ServiceDependency) : List ServiceDependency :=
  b.foldl (fun acc e => if acc.contains e then acc else acc ++ [e]) a

/-- The loop body of `rec_deps`: `l` is the copy of the service's edge set
the loop iterates over, and `recur` is the recursive entry point (one
fuel level down).  A dependency naming the service itself is skipped, a
dependency on an unknown service is skipped, a dependency whose own edge
set already names the start point is skipped (cycle suppression), and
otherwise the loop recurses into the dependency and unions the
dependency's resulting edge set into the service's own. -/
def rec_deps_go (recur : DepState → String → String → Option DepState)
    (name start : String) :
    DepState → List ServiceDependency → Option DepState
  | st, [] => some st
  | st, dep :: rest =>
    if dep.name = name then rec_deps_go recur name start st rest
    else
      match alookup st dep.name with
      | none => rec_deps_go recur name start st rest
      | some depDeps =>
        if depDeps.any (fun x => x.name = start) then
          rec_deps_go recur name start st rest
        else
          match recur st dep.name start with
          | none => none
          | some st' =>
            rec_deps_go recur name start
              (aupdate st' name (unionDeps (getDeps st' name) (getDeps st' dep.name)))
              rest

/-- `rec_deps(services, service_name, start_point)` with explicit fuel
bounding the recursion depth, starting the loop on a copy of the
service's current edge set. -/
def rec_deps : Nat → DepState → String → String → Option DepState
  | 0, _, _, _ => none
  | fuel + 1, st, name, start =>
    rec_deps_go (rec_deps fuel) name start st (getDeps st name)

/-- The second loop of `flat_deps`: expand every service in order. -/
def expand_all (fuel : Nat) (st : DepState) : List String → Option DepState
  | [] => some st
  | n :: rest =>
    match rec_deps fuel st n n with
    | none => none
    | some st' => expand_all fuel st' rest

/-- Direct edges of one service from its normalized `depends_on` mapping:
`ServiceDependency(k, v["condition"])` for each entry, conditions going
through `from_value`. -/
def depends_on_edges : List (String × Val) → Except String (List ServiceDependency)
  | [] => Except.ok []
  | (k, v) :: rest => do
    let c ←
      match v with
      | Val.map m =>
        match alookup m "condition" with
        | some (Val.str c) => Except.ok c
        | _ => Except.error "KeyError: condition"
      | _ => Except.error "TypeError: not a mapping"
    let cond ← from_value c
    let es ← depends_on_edges rest
    Except.ok (ServiceDependency.mk k cond :: es)

/-- Direct edges from `links`: service name before the colon, condition
`service_started` (the network-alias bookkeeping is separate state the
dependency claims do not touch and is not modelled). -/
def links_edges : List Val → Except String (List ServiceDependency)
  | [] => Except.ok []
  | Val.str c :: rest => do
    let es ← links_edges rest
    Except.ok (ServiceDependency.mk (String.mk (c.toList.takeWhile (fun ch => ch ≠ ':')))
      ServiceDependencyCondition.running :: es)
  | _ :: _ => Except.error "AttributeError: no attribute split"

/-- The seeding loop of `flat_deps` (without `with_extends`): each
service's `_deps` is the set of its `depends_on` edges followed by its
`links` edges. -/
def seed_deps : List (String × Val) → Except String DepState
  | [] => Except.ok []
  | (n, srv) :: rest =>
    match srv with
    | Val.map svcMap =>
      match
        (match alookup svcMap "depends_on" with
         | none => Except.ok []
         | some (Val.map deps) => depends_on_edges deps
         | some _ => Except.error "TypeError: depends_on is not normalized") with
      | Except.error e => Except.error e
      | Except.ok dep_es =>
        match
          (match alookup svcMap "links" with
           | none => Except.ok []
           | some (Val.list ls) => links_edges ls
           | some v => links_edges [v]) with
        | Except.error e => Except.error e
        | Except.ok link_es =>
          match seed_deps rest with
          | Except.error e => Except.error e
          | Except.ok st =>
            Except.ok ((n, unionDeps (unionDeps [] dep_es) link_es) :: st)
    | _ => Except.error "TypeError: service is not a mapping"

/-- `flat_deps(services)`: seed every service's `_deps`, then expand each
service in order.  An `Except.error` is a Python exception during seeding;
an `Except.ok none` means the expansion recursion exceeded the fuel. -/
def flat_deps (fuel : Nat) (services : List (String × Val)) :
    Except String (Option DepState) := do
  let st ← seed_deps services
  Except.ok (expand_all fuel st (services.map Prod.fst))

/-- A path through the current dependency edges from `a` to an edge named
`m`, every intermediate node being a known service whose edge set does not
name `start` (so the `rec_deps` guards let the traversal enter it).  Used
to characterize the edges the expansion can add. -/
inductive GoodPath (st : DepState) (start : String) : String → String → Prop where
  | direct {a m : String} : (∃ e ∈ getDeps st a, e.name = m) → GoodPath st start a m
  | step {a w m : String} :
      (∃ e ∈ getDeps st a, e.name = w) → w ≠ a → (alookup st w).isSome →
      (∀ e ∈ getDeps st w, e.name ≠ start) →
      GoodPath st start w m → GoodPath st start a m

/-! ### Container creation order

`_parse_compose_file` builds one container record per service replica (one
replica each here), then sorts the list by ascending size of the service's
`_deps` set with Python's stable `list.sort`, modelled as a stable
insertion sort.  Containers are identified by their service name.
-/

/-- The sort key: `len(c.get("_deps", []))`. -/
def deps_count (st : DepState) (n : String) : Nat := (getDeps st n).length

/-- Stable insertion: a new element goes before the first element with a
strictly larger key, after earlier elements with equal keys. -/
def insert_by_deps (st : DepState) (x : String) : List String → List String
  | [] => [x]
  | y :: ys =>
    if deps_count st x ≤ deps_count st y then x :: y :: ys
    else y :: insert_by_deps st x ys

/-- Stable sort of the container (service) names by ascending `_deps`
size, as `given_containers.sort(key=lambda c: len(c.get("_deps", [])))`. -/
def sort_by_deps (st : DepState) : List String → List String
  | [] => []
  | x :: xs => insert_by_deps st x (sort_by_deps st xs)

/-- The container creation order computed by `_parse_compose_file`: build
the dependency state with `flat_deps`, then stable-sort the services by
ascending transitive dependency count. -/
def container_creation_order (fuel : Nat) (services : List (String × Val)) :
    Except String (Option (List String)) := do
  let stO ← flat_deps fuel services
  Except.ok (stO.map fun st => sort_by_deps st (services.map Prod.fst))

/-! ### `normalize_service`: the `depends_on` canonicalization -/

/-- The list form of `depends_on` turned into a mapping with empty
bodies; list entries are service-name strings (a non-string entry would
become a non-string dictionary key, outside this embedding's
string-keyed mappings). -/
def depends_on_keys : List Val → Except String (List (String × Val))
  | [] => Except.ok []
  | Val.str s :: rest => (fun r => (s, Val.map []) :: r) <$> depends_on_keys rest
  | _ :: _ => Except.error "model: non-string entry in depends_on list"

/-- The `v.setdefault('condition', 'service_started')` loop over the
`depends_on` entries; `setdefault` appends the default binding at the end
when the key is missing and leaves the mapping alone otherwise. -/
def set_default_conditions : List (String × Val) → Except String (List (String × Val))
  | [] => Except.ok []
  | (k, Val.map m) :: rest =>
    let m' := if hasKey m "condition" then m else m ++ [("condition", Val.str "service_started")]
    (fun r => (k, Val.map m') :: r) <$> set_default_conditions rest
  | (_, _) :: _ => Except.error "AttributeError: no attribute setdefault"

/-- The `depends_on` section of `normalize_service`: a string becomes a
one-entry mapping, a sequence becomes a mapping with empty bodies, then
every entry's condition defaults to `service_started`. -/
def normalize_service_depends_on (service : List (String × Val)) :
    Except String (List (String × Val)) :=
  match alookup service "depends_on" with
  | none => Except.ok service
  | some deps => do
    let deps1 ←
      match deps with
      | Val.str s => Except.ok [(s, Val.map [])]
      | Val.list l => depends_on_keys l
      | Val.map m => Except.ok m
      | _ => Except.error "AttributeError: no attribute items"
    let deps2 ← set_default_conditions deps1
    Except.ok (aupdate service "depends_on" (Val.map deps2))

/-! ### `resolve_extends` (same-file case)

Cross-file extends opens and loads another file; that path performs file
input and is not part of the embedded state, so it is reported as an
error here.  The claims settled below only exercise the same-file path.
-/

/-- One iteration of the `resolve_extends` loop for a named service. -/
def resolve_extends_one (services : List (String × Val)) (name : String) :
    Except String (List (String × Val)) :=
  match alookup services name with
  | none => Except.error "KeyError: unknown service"
  | some serviceV => do
    let service ←
      match serviceV with
      | Val.map m => Except.ok m
      | _ => Except.error "TypeError: service is not a mapping"
    let ext ←
      match alookup service "extends" with
      | none => Except.ok []
      | some (Val.str s) => Except.ok [("service", Val.str s)]
      | some (Val.map m) => Except.ok m
      | some _ => Except.error "TypeError: extends"
    match alookup ext "service" with
    | none => Except.ok services
    | some (Val.str fromName) =>
      if fromName = "" then Except.ok services
      else
        match alookup ext "file" with
        | some _ => Except.error "model: cross-file extends performs file input"
        | none => do
          let fromSvc ←
            match alookup services fromName with
            | some (Val.map m) => Except.ok m
            | some _ => Except.error "TypeError: base service is not a mapping"
            | none => Except.ok []
          if hasKey fromSvc "_deps" then do
            let fromSvc := aremove fromSvc "_deps"
            let fromSvc := aremove fromSvc "extends"
            let base ← rec_merge_one [] fromSvc
            let merged ← rec_merge_one base service
            Except.ok (aupdate services name (Val.map merged))
          else
            Except.error "KeyError: _deps"
    | some _ => Except.error "TypeError: extends service name"

/-- `resolve_extends(services, service_names, environ)` for same-file
references: fold the per-service resolution over the name list. -/
def resolve_extends (services : List (String × Val)) (names : List String) :
    Except String (List (String × Val)) :=
  names.foldlM resolve_extends_one services

/-! ### `compose_down`: stop/remove schedule

`compose_down` walks the containers in reverse creation order, creates
one stop task per non-excluded container, awaits them all with
`asyncio.gather`, and only then removes the containers one by one in the
same reverse order.  A run is modelled as a list of events; the stop
phase is any interleaving of the per-container issue/complete pairs
(tasks run concurrently, so no cross-container ordering is imposed), and
the gather barrier places the whole removal phase after it.
-/

/-- Observable events of a `down` run, identified by container name. -/
inductive DownEvent : Type where
  | stopIssued : String → DownEvent
  | stopDone : String → DownEvent
  | rmIssued : String → DownEvent
  | rmDone : String → DownEvent
deriving Repr, DecidableEq

/-- The containers `compose_down` operates on: reverse creation order
with the excluded services skipped. -/
def down_names (containers : List String) (excluded : List String) : List String :=
  containers.reverse.filter fun c => !(excluded.contains c)

/-- The stop phase: some interleaving of the per-container stop tasks.
`interleave2` holds when the first list is an interleaving of the other
two (order within each preserved). -/
inductive interleave2 : List DownEvent → List DownEvent → List DownEvent → Prop where
  | nil : interleave2 [] [] []
  | left {x s a b} : interleave2 s a b → interleave2 (x :: s) (x :: a) b
  | right {x s a b} : interleave2 s a b → interleave2 (x :: s) a (x :: b)

/-- A valid trace of the concurrent stop phase for the given containers:
each container contributes `stopIssued` then `stopDone`, and distinct
containers' events interleave arbitrarily. -/
inductive stop_phase : List String → List DownEvent → Prop where
  | nil : stop_phase [] []
  | cons {c cs s rest} :
      stop_phase cs rest →
      interleave2 s [DownEvent.stopIssued c, DownEvent.stopDone c] rest →
      stop_phase (c :: cs) s

/-- The sequential removal phase: `rm` for each container in order. -/
def rm_phase (names : List String) : List DownEvent :=
  names.flatMap fun c => [DownEvent.rmIssued c, DownEvent.rmDone c]

/-- The traces `compose_down` can produce (orphan/volume/pod/network
cleanup, which follows the removal phase, is not modelled): a stop-phase
interleaving followed, after the `asyncio.gather` barrier, by the
sequential removal phase. -/
def compose_down_trace (containers excluded : List String) (tr : List DownEvent) : Prop :=
  ∃ s, stop_phase (down_names containers excluded) s ∧
    tr = s ++ rm_phase (down_names containers excluded)

/-- `e1` occurs strictly before `e2` somewhere in the trace. -/
def precedes (e1 e2 : DownEvent) (tr : List DownEvent) : Prop :=
  ∃ t1 t2 t3, tr = t1 ++ e1 :: t2 ++ e2 :: t3

mutual

/-- No mapping anywhere inside the value uses the merge special-case keys
`command`, `entrypoint` or `volumes`. -/
def special_key_free_val : Val → Bool
  | Val.list l => special_key_free_list l
  | Val.map m => special_key_free_doc m
  | _ => true

/-- All sequence elements are special-key free. -/
def special_key_free_list : List Val → Bool
  | [] => true
  | v :: rest => special_key_free_val v && special_key_free_list rest

/-- A mapping (document) free of the merge special-case keys at every
depth. -/
def special_key_free_doc : List (String × Val) → Bool
  | [] => true
  | (k, v) :: rest =>
    !(k = "command" || k = "entrypoint" || k = "volumes") &&
      (special_key_free_val v && special_key_free_doc rest)

end

/-- The environment binding `A` to the empty string and nothing else. -/
def envEmptyA : Env := fun n => if n = "A" then some "" else none

/-- The empty environment. -/
def envUnbound : Env := fun _ => none

/-- The `db` service of the end-to-end ordering example: no dependencies. -/
def svc_db : String × Val := ("db", Val.map [])

/-- The `cache` service of the ordering example: no dependencies. -/
def svc_cache : String × Val := ("cache", Val.map [])

/-- The `web` service of the ordering example: depends on `db` with the
`service_healthy` condition. -/
def svc_web : String × Val :=
  ("web", Val.map [("depends_on",
    Val.map [("db", Val.map [("condition", Val.str "service_healthy")])])])

/-- Relation between dependency states across a `rec_deps` run: edges
only grow, the known-service set is unchanged, and a service without an
edge naming `start` never gains one. -/
def stateLe (start : String) (st st' : DepState) : Prop :=
  (∀ n e, e ∈ getDeps st n → e ∈ getDeps st' n) ∧
  (∀ n, (alookup st' n).isSome ↔ (alookup st n).isSome) ∧
  (∀ n, (∀ e ∈ getDeps st n, e.name ≠ start) → ∀ e ∈ getDeps st' n, e.name ≠ start)

/-- The three-service dependency chain A -> B -> C -> A, in normalized
`depends_on` form. -/
def chain_services : List (String × Val) :=
  [("A", Val.map [("depends_on",
      Val.map [("B", Val.map [("condition", Val.str "service_started")])])]),
   ("B", Val.map [("depends_on",
      Val.map [("C", Val.map [("condition", Val.str "service_started")])])]),
   ("C", Val.map [("depends_on",
      Val.map [("A", Val.map [("condition", Val.str "service_started")])])])]

/-- The seeded dependency state of the chain example. -/
def chain_seed : DepState :=
  [("A", [ServiceDependency.mk "B" ServiceDependencyCondition.running]),
   ("B", [ServiceDependency.mk "C" ServiceDependencyCondition.running]),
   ("C", [ServiceDependency.mk "A" ServiceDependencyCondition.running])]

/-- The dependency state the chain example expands to. -/
def chain_result : DepState :=
  [("A", [ServiceDependency.mk "B" ServiceDependencyCondition.running,
          ServiceDependency.mk "C" ServiceDependencyCondition.running]),
   ("B", [ServiceDependency.mk "C" ServiceDependencyCondition.running,
          ServiceDependency.mk "A" ServiceDependencyCondition.running]),
   ("C", [ServiceDependency.mk "A" ServiceDependencyCondition.running])]

/-! ## Theorems -/

/-! ### Substitution lemmas -/

theorem tokenize_colon_dash :
    tokenize ("$\x7bA:-x\x7d".toList) = [Tok.var "A" (VarOp.dflt true ['x'])] := by rfl

theorem tokenize_dash :
    tokenize ("$\x7bA-x\x7d".toList) = [Tok.var "A" (VarOp.dflt false ['x'])] := by rfl

theorem tokenize_colon_dash_dollar :
    tokenize ("$\x7bA:-$B\x7d".toList) = [Tok.var "A" (VarOp.dflt true ['$', 'B'])] := by rfl

theorem tokenize_colon_q :
    tokenize ("$\x7bA:?msg\x7d".toList) =
      [Tok.var "A" (VarOp.errop true ['m', 's', 'g'])] := by rfl

theorem tokenize_q :
    tokenize ("$\x7bA?msg\x7d".toList) =
      [Tok.var "A" (VarOp.errop false ['m', 's', 'g'])] := by rfl

/-- C3: substituting the colon-dash form under an environment where `A`
is bound to the empty string yields the default, while the plain dash
form keeps the empty value; when `A` is unbound both forms yield the
default, and the default text (here a dollar reference to `B`) is not
itself substituted. -/
theorem rec_subs_default_forms (env : Env) :
    (env "A" = some "" →
      rec_subs_str env "$\x7bA:-x\x7d" = Except.ok "x" ∧
      rec_subs_str env "$\x7bA-x\x7d" = Except.ok "") ∧
    (env "A" = none →
      rec_subs_str env "$\x7bA:-x\x7d" = Except.ok "x" ∧
      rec_subs_str env "$\x7bA-x\x7d" = Except.ok "x" ∧
      rec_subs_str env "$\x7bA:-$B\x7d" = Except.ok "$B") := by
  constructor
  · intro h
    constructor
    · unfold rec_subs_str
      rw [tokenize_colon_dash]
      simp [renderToks, convert, h, VarOp.hasColon]
      rfl
    · unfold rec_subs_str
      rw [tokenize_dash]
      simp [renderToks, convert, h, VarOp.hasColon]
      rfl
  · intro h
    refine ⟨?_, ?_, ?_⟩
    · unfold rec_subs_str
      rw [tokenize_colon_dash]
      simp [renderToks, convert, h, VarOp.hasColon]
      rfl
    · unfold rec_subs_str
      rw [tokenize_dash]
      simp [renderToks, convert, h, VarOp.hasColon]
      rfl
    · unfold rec_subs_str
      rw [tokenize_colon_dash_dollar]
      simp [renderToks, convert, h, VarOp.hasColon]
      rfl

/-- Witness for `rec_subs_default_forms` at concrete environments. -/
theorem rec_subs_default_forms_witness :
    (rec_subs_str envEmptyA "$\x7bA:-x\x7d" = Except.ok "x" ∧
      rec_subs_str envEmptyA "$\x7bA-x\x7d" = Except.ok "") ∧
    (rec_subs_str envUnbound "$\x7bA:-x\x7d" = Except.ok "x" ∧
      rec_subs_str envUnbound "$\x7bA-x\x7d" = Except.ok "x" ∧
      rec_subs_str envUnbound "$\x7bA:-$B\x7d" = Except.ok "$B") :=
  ⟨(rec_subs_default_forms envEmptyA).1 rfl, (rec_subs_default_forms envUnbound).2 rfl⟩

/-- C9: for every environment, the colon-question form raises the error
message exactly when the variable is absent or bound to the empty
string, and the plain question form raises it exactly when the variable
is absent; the raised error aborts the substitution. -/
theorem rec_subs_required_forms (env : Env) :
    (rec_subs_str env "$\x7bA:?msg\x7d" = Except.error "msg" ↔
      (env "A" = none ∨ env "A" = some "")) ∧
    (rec_subs_str env "$\x7bA?msg\x7d" = Except.error "msg" ↔ env "A" = none) := by
  constructor
  · unfold rec_subs_str
    rw [tokenize_colon_q]
    rcases h : env "A" with _ | v
    · simp [renderToks, convert, h, VarOp.hasColon]
      rfl
    · by_cases hv : v = ""
      · subst hv
        simp [renderToks, convert, h, VarOp.hasColon]
        rfl
      · simp [renderToks, convert, h, hv, VarOp.hasColon]
        exact fun hc => Except.noConfusion hc
  · unfold rec_subs_str
    rw [tokenize_q]
    rcases h : env "A" with _ | v
    · simp [renderToks, convert, h, VarOp.hasColon]
      rfl
    · simp [renderToks, convert, h, VarOp.hasColon]
      exact fun hc => Except.noConfusion hc

/-! ### Merge engine lemmas -/

theorem ebind_ok {α β : Type} (a : α) (f : α → Except String β) :
    (Except.ok a : Except String α) >>= f = f a := rfl

theorem merge_entries_nil (s : List (String × Val)) :
    merge_entries s [] = Except.ok [] := by
  unfold merge_entries; rfl

theorem merge_entries_cons (s : List (String × Val)) (k : String) (v : Val)
    (rest : List (String × Val)) :
    merge_entries s ((k, v) :: rest) =
      match (match alookup s k with
             | none => Except.ok v
             | some v2 => merge_value k v v2) with
      | Except.error e => Except.error e
      | Except.ok v' =>
        match merge_entries s rest with
        | Except.error e => Except.error e
        | Except.ok re => Except.ok ((k, v') :: re) := by
  conv_lhs => rw [merge_entries.eq_def]

theorem merge_value_go_sound
    (recur : List (String × Val) → List (String × Val) →
      Option (Except String (List (String × Val))))
    (hrec : ∀ a b r, recur a b = some r → rec_merge_one a b = r)
    (k : String) (v v2 : Val) (r : Except String Val)
    (h : merge_value_go recur k v v2 = some r) : merge_value k v v2 = r := by
  unfold merge_value_go at h
  unfold merge_value
  split at h
  · simp_all
  · split at h
    · simp_all
    · cases v with
      | list a =>
        cases v2 <;> try simp_all [py_isinstance_type_of]
        split at h <;> simp_all
      | map a =>
        cases v2 with
        | map b =>
          rcases hr : recur a b with _ | r' <;> simp [hr] at h
          simp only [hrec a b r' hr]
          simp_all
        | str s => simp_all [py_isinstance_type_of]
        | int i => simp_all [py_isinstance_type_of]
        | bool b => simp_all [py_isinstance_type_of]
        | null => simp_all [py_isinstance_type_of]
        | list l => simp_all [py_isinstance_type_of]
      | str s => cases v2 <;> simp_all [py_isinstance_type_of]
      | int i => cases v2 <;> simp_all [py_isinstance_type_of]
      | bool b => cases v2 <;> simp_all [py_isinstance_type_of]
      | null => cases v2 <;> simp_all [py_isinstance_type_of]

theorem merge_entries_go_sound
    (recur : List (String × Val) → List (String × Val) →
      Option (Except String (List (String × Val))))
    (hrec : ∀ a b r, recur a b = some r → rec_merge_one a b = r)
    (source : List (String × Val)) :
    ∀ (t : List (String × Val)) r,
      merge_entries_go recur source t = some r → merge_entries source t = r := by
  intro t
  induction t with
  | nil => intro r h; simp [merge_entries_go] at h; simp [merge_entries_nil, ← h]
  | cons kv rest ih =>
    intro r h
    obtain ⟨k, v⟩ := kv
    unfold merge_entries_go at h
    rw [merge_entries_cons]
    rcases ha : alookup source k with _ | v2 <;> simp only [ha] at h ⊢
    · rcases hrest : merge_entries_go recur source rest with _ | re <;> rw [hrest] at h
      · simp at h
      · rw [ih re hrest]
        cases re <;> simp_all
    · rcases hv : merge_value_go recur k v v2 with _ | ve <;> rw [hv] at h
      · simp at h
      · rw [merge_value_go_sound recur hrec k v v2 ve hv]
        cases ve with
        | error e => simp_all
        | ok v' =>
          rcases hrest : merge_entries_go recur source rest with _ | re <;> rw [hrest] at h
          · simp at h
          · rw [ih re hrest]
            cases re <;> simp_all

theorem rec_merge_one_fuel_sound :
    ∀ (fuel : Nat) (t s : List (String × Val)) r,
      rec_merge_one_fuel fuel t s = some r → rec_merge_one t s = r := by
  intro fuel
  induction fuel with
  | zero => intro t s r h; simp [rec_merge_one_fuel] at h
  | succ fuel ih =>
    intro t s r h
    unfold rec_merge_one_fuel at h
    unfold rec_merge_one
    rcases hm : merge_entries_go (rec_merge_one_fuel fuel) s t with _ | me <;> rw [hm] at h
    · simp at h
    · rw [merge_entries_go_sound _ ih s t me hm]
      cases me <;> simp_all

theorem alookup_append_left {α : Type} (t u : List (String × α)) (k : String) (v : α)
    (h : alookup t k = some v) : alookup (t ++ u) k = some v := by
  induction t with
  | nil => simp [alookup] at h
  | cons kv rest ih =>
    obtain ⟨k', v'⟩ := kv
    unfold alookup at h ⊢
    by_cases hk : k' = k <;> simp only [hk, if_true, if_false] at h ⊢ <;> simp_all

theorem merge_entries_frame (s : List (String × Val)) (k : String)
    (hk : alookup s k = none) :
    ∀ (t r : List (String × Val)), merge_entries s t = Except.ok r →
      alookup r k = alookup t k := by
  intro t
  induction t with
  | nil => intro r h; rw [merge_entries_nil] at h; simp at h; simp [← h]
  | cons kv rest ih =>
    intro r h
    obtain ⟨k', v⟩ := kv
    rw [merge_entries_cons] at h
    by_cases hkk : k' = k
    · subst hkk
      simp only [hk] at h
      rcases hrest : merge_entries s rest with e | re <;> rw [hrest] at h <;> simp at h
      rw [← h]
      simp [alookup]
    · rcases ha : alookup s k' with _ | v2 <;> simp only [ha] at h
      · rcases hrest : merge_entries s rest with e | re <;> rw [hrest] at h <;> simp at h
        rw [← h]
        simp [alookup, hkk, ih re hrest]
      · rcases hv : merge_value k' v v2 with e | v' <;> rw [hv] at h
        · simp at h
        · rcases hrest : merge_entries s rest with e | re <;> rw [hrest] at h <;> simp at h
          rw [← h]
          simp [alookup, hkk, ih re hrest]

/-- C10: a key of the target that does not occur in the source keeps its
original binding in the merge result; the merge only ever touches keys
that occur in the source. -/
theorem rec_merge_one_frame (t s r : List (String × Val)) (k : String) (v : Val)
    (hks : hasKey s k = false) (hkt : alookup t k = some v)
    (h : rec_merge_one t s = Except.ok r) : alookup r k = some v := by
  have hs : alookup s k = none := by
    unfold hasKey at hks
    rcases hx : alookup s k with _ | w
    · rfl
    · rw [hx] at hks; simp at hks
  unfold rec_merge_one at h
  rcases hm : merge_entries s t with e | me <;> rw [hm] at h <;> simp at h
  rw [← h]
  have hme : alookup me k = some v := by rw [merge_entries_frame s k hs t me hm]; exact hkt
  exact alookup_append_left me _ k v hme

/-- Witness for `rec_merge_one_frame` at a concrete merge. -/
theorem rec_merge_one_frame_witness :
    hasKey [("y", Val.int 3)] "x" = false ∧
    alookup [("x", Val.str "1"), ("y", Val.int 2)] "x" = some (Val.str "1") ∧
    rec_merge_one [("x", Val.str "1"), ("y", Val.int 2)] [("y", Val.int 3)] =
      Except.ok [("x", Val.str "1"), ("y", Val.int 3)] ∧
    alookup [("x", Val.str "1"), ("y", Val.int 3)] "x" = some (Val.str "1") := by
  have hm : rec_merge_one [("x", Val.str "1"), ("y", Val.int 2)] [("y", Val.int 3)] =
      Except.ok [("x", Val.str "1"), ("y", Val.int 3)] :=
    rec_merge_one_fuel_sound 9 _ _ _ (by rfl)
  exact ⟨rfl, rfl, hm,
    rec_merge_one_frame [("x", Val.str "1"), ("y", Val.int 2)] [("y", Val.int 3)]
      [("x", Val.str "1"), ("y", Val.int 3)] "x" (Val.str "1") rfl rfl hm⟩

theorem rec_merge_one_nil_target (d : List (String × Val)) :
    rec_merge_one [] d = Except.ok d := by
  unfold rec_merge_one
  rw [merge_entries_nil]
  have hf : List.filter (fun kv => !hasKey ([] : List (String × Val)) kv.1) d = d := by
    induction d with
    | nil => rfl
    | cons kv rest ih => simp [List.filter, alookup, hasKey, ih]
  simp [hf]

/-- C4: folding the merge over the three documents in either grouping
gives the same result (for documents free of the `command`,
`entrypoint` and `volumes` special cases, as the claim is stated; the
grouping equality holds because merging into an empty target copies the
document). -/
theorem merge_all_assoc (d1 d2 d3 : List (String × Val))
    (h1 : special_key_free_doc d1 = true) (h2 : special_key_free_doc d2 = true)
    (h3 : special_key_free_doc d3 = true) :
    (do
      let x ← merge_all [d1, d2]
      merge_all [x, d3]) = merge_all [d1, d2, d3] := by
  simp only [merge_all, rec_merge, List.foldlM, rec_merge_one_nil_target, ebind_ok,
    bind_pure, pure_bind, bind_assoc]

/-- Witness for `merge_all_assoc` at concrete special-key-free documents. -/
theorem merge_all_assoc_witness :
    special_key_free_doc [("a", Val.str "1")] = true ∧
    special_key_free_doc [("b", Val.int 2)] = true ∧
    special_key_free_doc [("a", Val.str "3")] = true ∧
    (do
      let x ← merge_all [[("a", Val.str "1")], [("b", Val.int 2)]]
      merge_all [x, [("a", Val.str "3")]]) =
      merge_all [[("a", Val.str "1")], [("b", Val.int 2)], [("a", Val.str "3")]] :=
  ⟨by simp [special_key_free_doc, special_key_free_val],
    by simp [special_key_free_doc, special_key_free_val],
    by simp [special_key_free_doc, special_key_free_val],
    merge_all_assoc _ _ _
      (by simp [special_key_free_doc, special_key_free_val])
      (by simp [special_key_free_doc, special_key_free_val])
      (by simp [special_key_free_doc, special_key_free_val])⟩

/-- C2 counterexample: merging service layers with `volumes` entries
`/a:/x` then `/a:/y` (same source `/a`, different mount targets `/x` and
`/y`) keeps both entries, because deduplication is by the mount-target
segment, not the source; the result is not the single-entry list the
claim describes. -/
theorem rec_merge_volumes_source_counterexample :
    rec_merge_one [("volumes", Val.list [Val.str "/a:/x"])]
        [("volumes", Val.list [Val.str "/a:/y"])] =
      Except.ok [("volumes", Val.list [Val.str "/a:/x", Val.str "/a:/y"])] ∧
    rec_merge_one [("volumes", Val.list [Val.str "/a:/x"])]
        [("volumes", Val.list [Val.str "/a:/y"])] ≠
      Except.ok [("volumes", Val.list [Val.str "/a:/y"])] := by
  have hc : rec_merge_one [("volumes", Val.list [Val.str "/a:/x"])]
      [("volumes", Val.list [Val.str "/a:/y"])] =
      Except.ok [("volumes", Val.list [Val.str "/a:/x", Val.str "/a:/y"])] :=
    rec_merge_one_fuel_sound 9 _ _ _ rfl
  refine ⟨hc, ?_⟩
  rw [hc]
  intro h
  simp at h

/-- C2 amended: `volumes` entries are deduplicated by the mount-target
segment: layering `/x:/a` then `/y:/a` (same target `/a`) keeps only the
later `/y:/a`; an entry with an unrelated target (`/k:/b`) is kept, and
the incoming entries are appended after it. -/
theorem rec_merge_volumes_target_dedup :
    rec_merge_one [("volumes", Val.list [Val.str "/x:/a"])]
        [("volumes", Val.list [Val.str "/y:/a"])] =
      Except.ok [("volumes", Val.list [Val.str "/y:/a"])] ∧
    rec_merge_one [("volumes", Val.list [Val.str "/x:/a", Val.str "/k:/b"])]
        [("volumes", Val.list [Val.str "/y:/a"])] =
      Except.ok [("volumes", Val.list [Val.str "/k:/b", Val.str "/y:/a"])] :=
  ⟨rec_merge_one_fuel_sound 9 _ _ _ rfl, rec_merge_one_fuel_sound 9 _ _ _ rfl⟩

/-! ### `normalize_service` depends_on lemmas -/

theorem depends_on_keys_strs :
    ∀ names : List String,
      depends_on_keys (names.map Val.str) =
        Except.ok (names.map fun n => (n, Val.map [])) := by
  intro names
  induction names with
  | nil => rfl
  | cons n rest ih => simp [depends_on_keys, ih]

theorem set_default_conditions_empty_bodies :
    ∀ names : List String,
      set_default_conditions (names.map fun n => (n, Val.map [])) =
        Except.ok (names.map fun n =>
          (n, Val.map [("condition", Val.str "service_started")])) := by
  intro names
  induction names with
  | nil => rfl
  | cons n rest ih => simp [set_default_conditions, ih, hasKey, alookup]

theorem set_default_conditions_maps :
    ∀ entries : List (String × List (String × Val)),
      set_default_conditions (entries.map fun e => (e.1, Val.map e.2)) =
        Except.ok (entries.map fun e =>
          (e.1, Val.map (if hasKey e.2 "condition" then e.2
                         else e.2 ++ [("condition", Val.str "service_started")]))) := by
  intro entries
  induction entries with
  | nil => rfl
  | cons e rest ih => simp [set_default_conditions, ih]

/-- C5 counterexample: a string `depends_on` is canonicalized with the
literal condition `service_started`, not `running`, so the rewritten
mapping is not of the form the claim names. -/
theorem normalize_depends_on_counterexample :
    normalize_service_depends_on [("depends_on", Val.str "db")] =
      Except.ok [("depends_on",
        Val.map [("db", Val.map [("condition", Val.str "service_started")])])] ∧
    ("service_started" : String) ≠ "running" := ⟨rfl, by decide⟩

/-- C5 amended: `normalize_service` rewrites a string, sequence or
mapping `depends_on` to mapping form, assigning the literal default
condition `service_started` to every entry without an explicit
condition; `service_started` is the legacy alias that
`ServiceDependencyCondition.from_value` normalizes to the `running`
condition. -/
theorem normalize_depends_on_canonical (service : List (String × Val)) :
    (∀ s : String, alookup service "depends_on" = some (Val.str s) →
      normalize_service_depends_on service =
        Except.ok (aupdate service "depends_on"
          (Val.map [(s, Val.map [("condition", Val.str "service_started")])]))) ∧
    (∀ names : List String,
      alookup service "depends_on" = some (Val.list (names.map Val.str)) →
      normalize_service_depends_on service =
        Except.ok (aupdate service "depends_on"
          (Val.map (names.map fun n =>
            (n, Val.map [("condition", Val.str "service_started")]))))) ∧
    (∀ entries : List (String × List (String × Val)),
      alookup service "depends_on" =
        some (Val.map (entries.map fun e => (e.1, Val.map e.2))) →
      normalize_service_depends_on service =
        Except.ok (aupdate service "depends_on"
          (Val.map (entries.map fun e =>
            (e.1, Val.map (if hasKey e.2 "condition" then e.2
                           else e.2 ++ [("condition", Val.str "service_started")])))))) ∧
    from_value "service_started" = Except.ok ServiceDependencyCondition.running := by
  refine ⟨?_, ?_, ?_, by rfl⟩
  · intro s h
    simp only [normalize_service_depends_on, h]
    simp [ebind_ok, set_default_conditions, hasKey, alookup]
  · intro names h
    simp only [normalize_service_depends_on, h]
    simp [ebind_ok, depends_on_keys_strs, set_default_conditions_empty_bodies]
  · intro entries h
    simp only [normalize_service_depends_on, h]
    simp [ebind_ok, set_default_conditions_maps]

/-- Witness for `normalize_depends_on_canonical` at the three concrete
forms of `depends_on`. -/
theorem normalize_depends_on_canonical_witness :
    (alookup [("depends_on", Val.str "db")] "depends_on" = some (Val.str "db") ∧
      normalize_service_depends_on [("depends_on", Val.str "db")] =
        Except.ok [("depends_on",
          Val.map [("db", Val.map [("condition", Val.str "service_started")])])]) ∧
    (normalize_service_depends_on [("depends_on", Val.list [Val.str "a", Val.str "b"])] =
      Except.ok [("depends_on",
        Val.map [("a", Val.map [("condition", Val.str "service_started")]),
                 ("b", Val.map [("condition", Val.str "service_started")])])]) ∧
    (normalize_service_depends_on
        [("depends_on", Val.map [("db", Val.map [("condition", Val.str "service_healthy")]),
          ("redis", Val.map [])])] =
      Except.ok [("depends_on",
        Val.map [("db", Val.map [("condition", Val.str "service_healthy")]),
                 ("redis", Val.map [("condition", Val.str "service_started")])])]) := by
  refine ⟨⟨rfl, ?_⟩, ?_, ?_⟩
  · exact (normalize_depends_on_canonical [("depends_on", Val.str "db")]).1 "db" rfl
  · exact (normalize_depends_on_canonical
      [("depends_on", Val.list [Val.str "a", Val.str "b"])]).2.1 ["a", "b"] rfl
  · exact (normalize_depends_on_canonical
      [("depends_on", Val.map [("db", Val.map [("condition", Val.str "service_healthy")]),
        ("redis", Val.map [])])]).2.2.1
      [("db", [("condition", Val.str "service_healthy")]), ("redis", [])] rfl

/-! ### `resolve_extends` -/

/-- C6: extending a service that does not exist in the same file crashes
with a `KeyError` on the unconditional deletion of the `_deps` key from
the empty default base, instead of completing with the base treated as
empty; the graceful default in `services.get(from_service_name, \x7b\x7d)`
shows the intended behavior, which the following `del` defeats. -/
theorem resolve_extends_missing_base_raises :
    resolve_extends
      [("web", Val.map [("extends", Val.map [("service", Val.str "base")]),
        ("_deps", Val.list [])])] ["web"] =
      Except.error "KeyError: _deps" := rfl

/-! ### Container creation order -/

theorem mem_insert_by_deps (st : DepState) (x : String) :
    ∀ (l : List String) (z : String), z ∈ insert_by_deps st x l → z = x ∨ z ∈ l := by
  intro l
  induction l with
  | nil => intro z hz; simp [insert_by_deps] at hz; exact Or.inl hz
  | cons y ys ih =>
    intro z hz
    unfold insert_by_deps at hz
    split at hz
    · rcases List.mem_cons.mp hz with hz1 | hz1
      · exact Or.inl hz1
      · exact Or.inr hz1
    · rcases List.mem_cons.mp hz with hz1 | hz1
      · subst hz1; exact Or.inr (List.mem_cons_self z ys)
      · rcases ih z hz1 with h | h
        · exact Or.inl h
        · exact Or.inr (List.mem_cons_of_mem y h)

theorem pairwise_insert_by_deps (st : DepState) (x : String) :
    ∀ l : List String,
      List.Pairwise (fun a b => deps_count st a ≤ deps_count st b) l →
      List.Pairwise (fun a b => deps_count st a ≤ deps_count st b)
        (insert_by_deps st x l) := by
  intro l
  induction l with
  | nil => intro _; simp [insert_by_deps]
  | cons y ys ih =>
    intro h
    rw [List.pairwise_cons] at h
    obtain ⟨hy, hys⟩ := h
    unfold insert_by_deps
    split
    · rename_i hxy
      rw [List.pairwise_cons]
      refine ⟨?_, ?_⟩
      · intro z hz
        rcases List.mem_cons.mp hz with hz1 | hz1
        · subst hz1; exact hxy
        · exact le_trans hxy (hy z hz1)
      · rw [List.pairwise_cons]
        exact ⟨hy, hys⟩
    · rename_i hxy
      rw [List.pairwise_cons]
      refine ⟨?_, ih hys⟩
      intro z hz
      rcases mem_insert_by_deps st x ys z hz with hz1 | hz1
      · subst hz1; omega
      · exact hy z hz1

theorem sort_by_deps_sorted (st : DepState) :
    ∀ l : List String,
      List.Pairwise (fun a b => deps_count st a ≤ deps_count st b) (sort_by_deps st l) := by
  intro l
  induction l with
  | nil => simp [sort_by_deps]
  | cons x xs ih => exact pairwise_insert_by_deps st x _ ih

/-- C7: the container creation order sorts containers by ascending size
of their transitive dependency set (the sorted list is pairwise ordered
by dependency count), and for the db/web/cache example — in every file
order of the three services — the computed creation order is
`[db, cache, web]` or `[cache, db, web]`, with `web` always last. -/
theorem container_order_by_deps_size :
    (∀ (st : DepState) (l : List String),
      List.Pairwise (fun a b => deps_count st a ≤ deps_count st b) (sort_by_deps st l)) ∧
    (container_creation_order 9 [svc_db, svc_web, svc_cache] =
        Except.ok (some ["db", "cache", "web"]) ∨
      container_creation_order 9 [svc_db, svc_web, svc_cache] =
        Except.ok (some ["cache", "db", "web"])) ∧
    (container_creation_order 9 [svc_db, svc_cache, svc_web] =
        Except.ok (some ["db", "cache", "web"]) ∨
      container_creation_order 9 [svc_db, svc_cache, svc_web] =
        Except.ok (some ["cache", "db", "web"])) ∧
    (container_creation_order 9 [svc_web, svc_db, svc_cache] =
        Except.ok (some ["db", "cache", "web"]) ∨
      container_creation_order 9 [svc_web, svc_db, svc_cache] =
        Except.ok (some ["cache", "db", "web"])) ∧
    (container_creation_order 9 [svc_web, svc_cache, svc_db] =
        Except.ok (some ["db", "cache", "web"]) ∨
      container_creation_order 9 [svc_web, svc_cache, svc_db] =
        Except.ok (some ["cache", "db", "web"])) ∧
    (container_creation_order 9 [svc_cache, svc_db, svc_web] =
        Except.ok (some ["db", "cache", "web"]) ∨
      container_creation_order 9 [svc_cache, svc_db, svc_web] =
        Except.ok (some ["cache", "db", "web"])) ∧
    (container_creation_order 9 [svc_cache, svc_web, svc_db] =
        Except.ok (some ["db", "cache", "web"]) ∨
      container_creation_order 9 [svc_cache, svc_web, svc_db] =
        Except.ok (some ["cache", "db", "web"])) :=
  ⟨sort_by_deps_sorted, Or.inl rfl, Or.inl rfl, Or.inl rfl, Or.inr rfl, Or.inr rfl,
    Or.inr rfl⟩

/-! ### `compose_down` ordering -/

theorem interleave2_mem_left {s a b : List DownEvent} (h : interleave2 s a b) :
    ∀ x ∈ a, x ∈ s := by
  induction h with
  | nil => intro x hx; cases hx
  | left h ih =>
    intro x hx
    rcases List.mem_cons.mp hx with hx1 | hx1
    · subst hx1; exact List.mem_cons_self _ _
    · exact List.mem_cons_of_mem _ (ih x hx1)
  | right h ih => intro x hx; exact List.mem_cons_of_mem _ (ih x hx)

theorem interleave2_mem_right {s a b : List DownEvent} (h : interleave2 s a b) :
    ∀ x ∈ b, x ∈ s := by
  induction h with
  | nil => intro x hx; cases hx
  | left h ih => intro x hx; exact List.mem_cons_of_mem _ (ih x hx)
  | right h ih =>
    intro x hx
    rcases List.mem_cons.mp hx with hx1 | hx1
    · subst hx1; exact List.mem_cons_self _ _
    · exact List.mem_cons_of_mem _ (ih x hx1)

theorem stop_phase_done_mem {cs : List String} {s : List DownEvent}
    (h : stop_phase cs s) : ∀ c ∈ cs, DownEvent.stopDone c ∈ s := by
  induction h with
  | nil => intro c hc; cases hc
  | cons hrest hint ih =>
    intro c hc
    rcases List.mem_cons.mp hc with hc1 | hc1
    · subst hc1
      exact interleave2_mem_left hint _ (by simp)
    · exact interleave2_mem_right hint _ (ih c hc1)

theorem rm_phase_issued_mem {a : String} :
    ∀ names : List String, a ∈ names → DownEvent.rmIssued a ∈ rm_phase names := by
  intro names
  induction names with
  | nil => intro h; cases h
  | cons n rest ih =>
    intro h
    rcases List.mem_cons.mp h with h1 | h1
    · subst h1; simp [rm_phase]
    · have hx := ih h1
      simp [rm_phase] at hx ⊢
      tauto

/-- C8: in every trace `compose_down` can produce, no `rm` is issued
before every stop has completed; and the stop phase is concurrent: for
containers `[b, a]` both completion orders of the stops yield valid
traces. -/
theorem compose_down_stop_before_rm :
    (∀ (containers excluded : List String) (tr : List DownEvent),
      compose_down_trace containers excluded tr →
      ∀ a ∈ down_names containers excluded, ∀ b ∈ down_names containers excluded,
        precedes (DownEvent.stopDone b) (DownEvent.rmIssued a) tr) ∧
    (compose_down_trace ["b", "a"] []
      [DownEvent.stopIssued "a", DownEvent.stopIssued "b",
       DownEvent.stopDone "a", DownEvent.stopDone "b",
       DownEvent.rmIssued "a", DownEvent.rmDone "a",
       DownEvent.rmIssued "b", DownEvent.rmDone "b"] ∧
     compose_down_trace ["b", "a"] []
      [DownEvent.stopIssued "a", DownEvent.stopIssued "b",
       DownEvent.stopDone "b", DownEvent.stopDone "a",
       DownEvent.rmIssued "a", DownEvent.rmDone "a",
       DownEvent.rmIssued "b", DownEvent.rmDone "b"]) := by
  refine ⟨?_, ?_, ?_⟩
  · intro containers excluded tr htr a ha b hb
    obtain ⟨s, hs, htr'⟩ := htr
    have hdone : DownEvent.stopDone b ∈ s := stop_phase_done_mem hs b hb
    have hrm : DownEvent.rmIssued a ∈ rm_phase (down_names containers excluded) :=
      rm_phase_issued_mem _ ha
    obtain ⟨u1, u2, hu⟩ := List.append_of_mem hdone
    obtain ⟨w1, w2, hw⟩ := List.append_of_mem hrm
    refine ⟨u1, u2 ++ w1, w2, ?_⟩
    rw [htr', hu, hw]
    simp
  · exact ⟨[DownEvent.stopIssued "a", DownEvent.stopIssued "b",
      DownEvent.stopDone "a", DownEvent.stopDone "b"],
      stop_phase.cons (stop_phase.cons stop_phase.nil
        (interleave2.left (interleave2.left interleave2.nil)))
        (interleave2.left (interleave2.right (interleave2.left
          (interleave2.right interleave2.nil)))),
      rfl⟩
  · exact ⟨[DownEvent.stopIssued "a", DownEvent.stopIssued "b",
      DownEvent.stopDone "b", DownEvent.stopDone "a"],
      stop_phase.cons (stop_phase.cons stop_phase.nil
        (interleave2.left (interleave2.left interleave2.nil)))
        (interleave2.left (interleave2.right (interleave2.right
          (interleave2.left interleave2.nil)))),
      rfl⟩

/-- Witness for `compose_down_stop_before_rm` at a concrete trace. -/
theorem compose_down_stop_before_rm_witness :
    precedes (DownEvent.stopDone "b") (DownEvent.rmIssued "a")
      [DownEvent.stopIssued "a", DownEvent.stopIssued "b",
       DownEvent.stopDone "a", DownEvent.stopDone "b",
       DownEvent.rmIssued "a", DownEvent.rmDone "a",
       DownEvent.rmIssued "b", DownEvent.rmDone "b"] :=
  compose_down_stop_before_rm.1 ["b", "a"] [] _
    compose_down_stop_before_rm.2.1 "a" (by decide) "b" (by decide)

/-! ### Dependency graph builder: no new self-edges -/

theorem alookup_aupdate_self {α : Type} (l : List (String × α)) (k : String) (v : α) :
    alookup (aupdate l k v) k = some v := by
  induction l with
  | nil => simp [aupdate, alookup]
  | cons kv rest ih =>
    obtain ⟨k', v'⟩ := kv
    unfold aupdate
    by_cases hk : k' = k <;> simp [hk, alookup, ih]

theorem alookup_aupdate_other {α : Type} (l : List (String × α)) (k : String) (v : α)
    (m : String) (h : m ≠ k) : alookup (aupdate l k v) m = alookup l m := by
  induction l with
  | nil => simp [aupdate, alookup, Ne.symm h]
  | cons kv rest ih =>
    obtain ⟨k', v'⟩ := kv
    unfold aupdate
    by_cases hk : k' = k
    · subst hk
      simp [alookup, Ne.symm h]
    · simp [hk, alookup, ih]

theorem getDeps_aupdate_self (st : DepState) (n : String) (v : List ServiceDependency) :
    getDeps (aupdate st n v) n = v := by
  simp [getDeps, alookup_aupdate_self]

theorem getDeps_aupdate_other (st : DepState) (n : String) (v : List ServiceDependency)
    (m : String) (h : m ≠ n) : getDeps (aupdate st n v) m = getDeps st m := by
  simp [getDeps, alookup_aupdate_other st n v m h]

theorem mem_unionDeps_left (e : ServiceDependency) :
    ∀ (b a : List ServiceDependency), e ∈ a → e ∈ unionDeps a b := by
  intro b
  induction b with
  | nil => intro a h; exact h
  | cons x xs ih =>
    intro a h
    unfold unionDeps
    simp only [List.foldl_cons]
    by_cases hc : a.contains x
    · simp only [hc, if_true]
      exact ih a h
    · simp only [hc, if_false]
      exact ih _ (List.mem_append_left _ h)

theorem mem_unionDeps_elim (e : ServiceDependency) :
    ∀ (b a : List ServiceDependency), e ∈ unionDeps a b → e ∈ a ∨ e ∈ b := by
  intro b
  induction b with
  | nil => intro a h; exact Or.inl h
  | cons x xs ih =>
    intro a h
    unfold unionDeps at h
    simp only [List.foldl_cons] at h
    by_cases hc : a.contains x
    · simp only [hc, if_true] at h
      rcases ih a h with h1 | h1
      · exact Or.inl h1
      · exact Or.inr (List.mem_cons_of_mem _ h1)
    · simp only [hc, if_false] at h
      rcases ih _ h with h1 | h1
      · rcases List.mem_append.mp h1 with h2 | h2
        · exact Or.inl h2
        · simp at h2
          subst h2
          exact Or.inr (List.mem_cons_self _ _)
      · exact Or.inr (List.mem_cons_of_mem _ h1)

theorem stateLe_refl (start : String) (st : DepState) : stateLe start st st :=
  ⟨fun _ _ h => h, fun _ => Iff.rfl, fun _ h => h⟩

theorem stateLe_trans {start : String} {s1 s2 s3 : DepState}
    (h12 : stateLe start s1 s2) (h23 : stateLe start s2 s3) : stateLe start s1 s3 :=
  ⟨fun n e h => h23.1 n e (h12.1 n e h),
   fun n => (h23.2.1 n).trans (h12.2.1 n),
   fun n h => h23.2.2 n (h12.2.2 n h)⟩

theorem aupdate_union_stateLe (start : String) (st1 : DepState) (n dn : String)
    (hasn : (alookup st1 n).isSome)
    (hdn : ∀ e ∈ getDeps st1 dn, e.name ≠ start) :
    stateLe start st1
      (aupdate st1 n (unionDeps (getDeps st1 n) (getDeps st1 dn))) := by
  refine ⟨?_, ?_, ?_⟩
  · intro m e h
    by_cases hm : m = n
    · subst hm
      rw [getDeps_aupdate_self]
      exact mem_unionDeps_left e _ _ h
    · rw [getDeps_aupdate_other _ _ _ _ hm]
      exact h
  · intro m
    by_cases hm : m = n
    · subst hm
      simp [alookup_aupdate_self, hasn]
    · simp [alookup_aupdate_other _ _ _ _ hm]
  · intro m hm e he
    by_cases hmn : m = n
    · subst hmn
      rw [getDeps_aupdate_self] at he
      rcases mem_unionDeps_elim e _ _ he with h1 | h1
      · exact hm e h1
      · exact hdn e h1
    · rw [getDeps_aupdate_other _ _ _ _ hmn] at he
      exact hm e he


theorem rec_deps_go_stateLe (start : String)
    (recur : DepState → String → String → Option DepState)
    (hrec : ∀ st n st', (alookup st n).isSome → recur st n start = some st' →
      stateLe start st st') :
    ∀ (l : List ServiceDependency) (name : String) (st st' : DepState),
      (alookup st name).isSome →
      rec_deps_go recur name start st l = some st' →
      stateLe start st st' := by
  intro l
  induction l with
  | nil =>
    intro name st st' hn h
    simp [rec_deps_go] at h
    rw [← h]
    exact stateLe_refl start st
  | cons dep rest ih =>
    intro name st st' hn h
    unfold rec_deps_go at h
    split at h
    · exact ih name st st' hn h
    · split at h
      · exact ih name st st' hn h
      · rename_i depDeps heq
        split at h
        · exact ih name st st' hn h
        · rename_i hany
          split at h
          · exact absurd h (by simp)
          · rename_i st1 hr
            have hdomdep : (alookup st dep.name).isSome := by simp [heq]
            have hle1 : stateLe start st st1 := hrec st dep.name st1 hdomdep hr
            have hdepfree : ∀ e ∈ getDeps st dep.name, e.name ≠ start := by
              intro e he hcon
              have : depDeps.any (fun x => x.name = start) = true := by
                rw [List.any_eq_true]
                refine ⟨e, ?_, by simp [hcon]⟩
                simpa [getDeps, heq] using he
              simp [this] at hany
            have hdepfree1 : ∀ e ∈ getDeps st1 dep.name, e.name ≠ start :=
              hle1.2.2 dep.name hdepfree
            have hasn1 : (alookup st1 name).isSome := (hle1.2.1 name).mpr hn
            have hle2 : stateLe start st1
                (aupdate st1 name (unionDeps (getDeps st1 name) (getDeps st1 dep.name))) :=
              aupdate_union_stateLe start st1 name dep.name hasn1 hdepfree1
            have hasn2 : (alookup (aupdate st1 name
                (unionDeps (getDeps st1 name) (getDeps st1 dep.name))) name).isSome := by
              simp [alookup_aupdate_self]
            have hle3 := ih name _ st' hasn2 h
            exact stateLe_trans (stateLe_trans hle1 hle2) hle3

theorem rec_deps_stateLe (start : String) :
    ∀ (fuel : Nat) (st : DepState) (n : String) (st' : DepState),
      (alookup st n).isSome →
      rec_deps fuel st n start = some st' →
      stateLe start st st' := by
  intro fuel
  induction fuel with
  | zero => intro st n st' hn h; simp [rec_deps] at h
  | succ fuel ih =>
    intro st n st' hn h
    unfold rec_deps at h
    exact rec_deps_go_stateLe start (rec_deps fuel)
      (fun st2 m st2' hm hr => ih st2 m st2' hm hr) _ n st st' hn h


theorem gp_mono {start : String} {st st' : DepState}
    (hle : stateLe start st st') :
    ∀ {a m : String}, GoodPath st start a m → GoodPath st' start a m := by
  intro a m h
  induction h with
  | direct he =>
    obtain ⟨e, hmem, hname⟩ := he
    exact GoodPath.direct ⟨e, hle.1 _ e hmem, hname⟩
  | step he hwa hdom hfree tail ih =>
    rename_i a' w' m'
    obtain ⟨e, hmem, hname⟩ := he
    exact GoodPath.step ⟨e, hle.1 _ e hmem, hname⟩ hwa ((hle.2.1 w').mpr hdom)
      (hle.2.2 w' hfree) ih

theorem gp_append {st : DepState} {start : String} :
    ∀ {a w m : String}, GoodPath st start a w →
      (alookup st w).isSome → (∀ e ∈ getDeps st w, e.name ≠ start) →
      GoodPath st start w m → GoodPath st start a m := by
  intro a w m h
  induction h with
  | direct he =>
    rename_i a' w'
    intro hdom hfree h2
    by_cases haw : w' = a'
    · subst haw
      exact h2
    · exact GoodPath.step he haw hdom hfree h2
  | step he hwa hdom hfree tail ih =>
    intro hdom2 hfree2 h2
    exact GoodPath.step he hwa hdom hfree (ih hdom2 hfree2 h2)

theorem gp_collapse {st st2 : DepState} {start : String}
    (hedges : ∀ z e, e ∈ getDeps st2 z → e ∈ getDeps st z ∨ GoodPath st start z e.name)
    (hdeps : ∀ n e, e ∈ getDeps st n → e ∈ getDeps st2 n)
    (hdom : ∀ w, (alookup st2 w).isSome → (alookup st w).isSome) :
    ∀ {a m : String}, GoodPath st2 start a m → GoodPath st start a m := by
  intro a m h
  induction h with
  | direct he =>
    rename_i a' m'
    obtain ⟨e, hmem, hname⟩ := he
    rcases hedges a' e hmem with h1 | h1
    · exact GoodPath.direct ⟨e, h1, hname⟩
    · rw [hname] at h1
      exact h1
  | step he hwa hdomw hfree tail ih =>
    rename_i a' w' m'
    obtain ⟨e, hmem, hname⟩ := he
    have hdomw' : (alookup st w').isSome := hdom w' hdomw
    have hfree' : ∀ e ∈ getDeps st w', e.name ≠ start := by
      intro e2 he2
      exact hfree e2 (hdeps w' e2 he2)
    rcases hedges a' e hmem with h1 | h1
    · exact GoodPath.step ⟨e, h1, hname⟩ hwa hdomw' hfree' ih
    · rw [hname] at h1
      exact gp_append h1 hdomw' hfree' ih


theorem rec_deps_go_reach (start : String)
    (recur : DepState → String → String → Option DepState)
    (hrecLe : ∀ st n st', (alookup st n).isSome → recur st n start = some st' →
      stateLe start st st')
    (hrecReach : ∀ st n st', (alookup st n).isSome → recur st n start = some st' →
      ∀ z e, e ∈ getDeps st' z → e ∈ getDeps st z ∨ GoodPath st start z e.name) :
    ∀ (l : List ServiceDependency) (name : String) (st st' : DepState),
      (alookup st name).isSome →
      (∀ e ∈ l, e ∈ getDeps st name) →
      rec_deps_go recur name start st l = some st' →
      ∀ z e, e ∈ getDeps st' z → e ∈ getDeps st z ∨ GoodPath st start z e.name := by
  intro l
  induction l with
  | nil =>
    intro name st st' hn hl h
    simp [rec_deps_go] at h
    rw [← h]
    intro z e he
    exact Or.inl he
  | cons dep rest ih =>
    intro name st st' hn hl h
    unfold rec_deps_go at h
    split at h
    · exact ih name st st' hn (fun e he => hl e (List.mem_cons_of_mem dep he)) h
    · split at h
      · exact ih name st st' hn (fun e he => hl e (List.mem_cons_of_mem dep he)) h
      · rename_i depDeps heq
        split at h
        · exact ih name st st' hn (fun e he => hl e (List.mem_cons_of_mem dep he)) h
        · rename_i hany
          split at h
          · exact absurd h (by simp)
          · rename_i st1 hr
            have hdomdep : (alookup st dep.name).isSome := by simp [heq]
            have hle1 : stateLe start st st1 := hrecLe st dep.name st1 hdomdep hr
            have hdepfree : ∀ e ∈ getDeps st dep.name, e.name ≠ start := by
              intro e he hcon
              have : depDeps.any (fun x => x.name = start) = true := by
                rw [List.any_eq_true]
                refine ⟨e, ?_, by simp [hcon]⟩
                simpa [getDeps, heq] using he
              simp [this] at hany
            rename_i hne _ _
            have hreach1 := hrecReach st dep.name st1 hdomdep hr
            have hdepedge : ∃ e ∈ getDeps st name, e.name = dep.name :=
              ⟨dep, hl dep (List.mem_cons_self dep rest), rfl⟩
            have hClaimA : ∀ z e,
                e ∈ getDeps (aupdate st1 name
                  (unionDeps (getDeps st1 name) (getDeps st1 dep.name))) z →
                e ∈ getDeps st z ∨ GoodPath st start z e.name := by
              intro z e he
              by_cases hz : z = name
              · subst hz
                rw [getDeps_aupdate_self] at he
                rcases mem_unionDeps_elim e _ _ he with h1 | h1
                · exact hreach1 z e h1
                · rcases hreach1 dep.name e h1 with h2 | h2
                  · exact Or.inr (GoodPath.step hdepedge hne hdomdep hdepfree
                      (GoodPath.direct ⟨e, h2, rfl⟩))
                  · exact Or.inr (GoodPath.step hdepedge hne hdomdep hdepfree h2)
              · rw [getDeps_aupdate_other _ _ _ _ hz] at he
                exact hreach1 z e he
            have hdepfree1 : ∀ e ∈ getDeps st1 dep.name, e.name ≠ start :=
              hle1.2.2 dep.name hdepfree
            have hasn1 : (alookup st1 name).isSome := (hle1.2.1 name).mpr hn
            have hle2 : stateLe start st
                (aupdate st1 name (unionDeps (getDeps st1 name) (getDeps st1 dep.name))) :=
              stateLe_trans hle1
                (aupdate_union_stateLe start st1 name dep.name hasn1 hdepfree1)
            have hasn2 : (alookup (aupdate st1 name
                (unionDeps (getDeps st1 name) (getDeps st1 dep.name))) name).isSome := by
              simp [alookup_aupdate_self]
            have hrest2 : ∀ e ∈ rest, e ∈ getDeps (aupdate st1 name
                (unionDeps (getDeps st1 name) (getDeps st1 dep.name))) name := by
              intro e he
              exact hle2.1 name e (hl e (List.mem_cons_of_mem dep he))
            have hih := ih name _ st' hasn2 hrest2 h
            intro z e he
            rcases hih z e he with h1 | h1
            · exact hClaimA z e h1
            · exact Or.inr (gp_collapse hClaimA hle2.1
                (fun w hw => (hle2.2.1 w).mp hw) h1)

theorem rec_deps_reach (start : String) :
    ∀ (fuel : Nat) (st : DepState) (n : String) (st' : DepState),
      (alookup st n).isSome →
      rec_deps fuel st n start = some st' →
      ∀ z e, e ∈ getDeps st' z → e ∈ getDeps st z ∨ GoodPath st start z e.name := by
  intro fuel
  induction fuel with
  | zero => intro st n st' hn h; simp [rec_deps] at h
  | succ fuel ih =>
    intro st n st' hn h
    unfold rec_deps at h
    exact rec_deps_go_reach start (rec_deps fuel)
      (fun st2 m st2' hm hr => rec_deps_stateLe start fuel st2 m st2' hm hr)
      (fun st2 m st2' hm hr => ih st2 m st2' hm hr)
      _ n st st' hn (fun e he => he) h


theorem rec_deps_go_cycle (start : String) (fuel : Nat)
    (ihdiv : ∀ (st : DepState) (a w : String), w ≠ a →
      (alookup st a).isSome → (alookup st w).isSome →
      (∀ e ∈ getDeps st a, e.name ≠ start) → (∀ e ∈ getDeps st w, e.name ≠ start) →
      (∃ e ∈ getDeps st a, e.name = w) → GoodPath st start w a →
      rec_deps fuel st a start = none) :
    ∀ (l : List ServiceDependency) (st : DepState) (a w : String),
      w ≠ a → (alookup st a).isSome → (alookup st w).isSome →
      (∀ e ∈ getDeps st a, e.name ≠ start) → (∀ e ∈ getDeps st w, e.name ≠ start) →
      (∃ e ∈ getDeps st a, e.name = w) →
      (∃ e ∈ l, e.name = w) →
      GoodPath st start w a →
      rec_deps_go (rec_deps fuel) a start st l = none := by
  intro l
  induction l with
  | nil =>
    intro st a w _ _ _ _ _ _ hexl _
    obtain ⟨e, he, _⟩ := hexl
    cases he
  | cons dep rest ih =>
    intro st a w hne hdoma hdomw hfreea hfreew hedge hexl hpath
    have hrestcase : dep.name ≠ w →
        ∃ e ∈ rest, e.name = w := by
      intro hdw
      obtain ⟨e, he, hew⟩ := hexl
      rcases List.mem_cons.mp he with h1 | h1
      · subst h1; exact absurd hew hdw
      · exact ⟨e, h1, hew⟩
    unfold rec_deps_go
    split
    · rename_i hda
      have hdw : dep.name ≠ w := by
        intro hx
        rw [hx] at hda
        exact hne hda
      exact ih st a w hne hdoma hdomw hfreea hfreew hedge (hrestcase hdw) hpath
    · rename_i hda
      split
      · rename_i hnone
        have hdw : dep.name ≠ w := by
          intro hx
          rw [hx] at hnone
          rw [hnone] at hdomw
          simp at hdomw
        exact ih st a w hne hdoma hdomw hfreea hfreew hedge (hrestcase hdw) hpath
      · rename_i depDeps heq
        split
        · rename_i hany
          have hdw : dep.name ≠ w := by
            intro hx
            rw [List.any_eq_true] at hany
            obtain ⟨e, he, hes⟩ := hany
            have : e ∈ getDeps st w := by
              rw [← hx]
              simp [getDeps, heq]
              exact he
            exact hfreew e this (by simpa using hes)
          exact ih st a w hne hdoma hdomw hfreea hfreew hedge (hrestcase hdw) hpath
        · rename_i hany
          by_cases hdw : dep.name = w
          · have hnone : rec_deps fuel st dep.name start = none := by
              rw [hdw]
              cases hpath with
              | direct he =>
                exact ihdiv st w a (Ne.symm hne) hdomw hdoma hfreew hfreea he
                  (GoodPath.direct hedge)
              | @step _ v _ he hvw hvdom hvfree tail =>
                exact ihdiv st w v hvw hdomw hvdom hfreew hvfree he
                  (gp_append tail hdoma hfreea (GoodPath.direct hedge))
            rw [hnone]
          · rcases hr : rec_deps fuel st dep.name start with _ | st1
            · rfl
            · show rec_deps_go (rec_deps fuel) a start
                (aupdate st1 a (unionDeps (getDeps st1 a) (getDeps st1 dep.name))) rest = none
              have hdomdep : (alookup st dep.name).isSome := by simp [heq]
              have hle1 : stateLe start st st1 :=
                rec_deps_stateLe start fuel st dep.name st1 hdomdep hr
              have hdepfree : ∀ e ∈ getDeps st dep.name, e.name ≠ start := by
                intro e he hcon
                have : depDeps.any (fun x => x.name = start) = true := by
                  rw [List.any_eq_true]
                  refine ⟨e, ?_, by simp [hcon]⟩
                  simpa [getDeps, heq] using he
                simp [this] at hany
              have hdepfree1 : ∀ e ∈ getDeps st1 dep.name, e.name ≠ start :=
                hle1.2.2 dep.name hdepfree
              have hasn1 : (alookup st1 a).isSome := (hle1.2.1 a).mpr hdoma
              have hle2 : stateLe start st
                  (aupdate st1 a (unionDeps (getDeps st1 a) (getDeps st1 dep.name))) :=
                stateLe_trans hle1
                  (aupdate_union_stateLe start st1 a dep.name hasn1 hdepfree1)
              exact ih (aupdate st1 a (unionDeps (getDeps st1 a) (getDeps st1 dep.name)))
                a w hne
                ((hle2.2.1 a).mpr hdoma)
                ((hle2.2.1 w).mpr hdomw)
                (hle2.2.2 a hfreea)
                (hle2.2.2 w hfreew)
                (by obtain ⟨e, he, hew⟩ := hedge; exact ⟨e, hle2.1 a e he, hew⟩)
                (hrestcase hdw)
                (gp_mono hle2 hpath)

theorem rec_deps_cycle_none (start : String) :
    ∀ (fuel : Nat) (st : DepState) (a w : String),
      w ≠ a → (alookup st a).isSome → (alookup st w).isSome →
      (∀ e ∈ getDeps st a, e.name ≠ start) → (∀ e ∈ getDeps st w, e.name ≠ start) →
      (∃ e ∈ getDeps st a, e.name = w) → GoodPath st start w a →
      rec_deps fuel st a start = none := by
  intro fuel
  induction fuel with
  | zero => intro st a w _ _ _ _ _ _ _; rfl
  | succ fuel ih =>
    intro st a w hne hdoma hdomw hfreea hfreew hedge hpath
    unfold rec_deps
    exact rec_deps_go_cycle start fuel ih _ st a w hne hdoma hdomw hfreea hfreew
      hedge hedge hpath


theorem rec_deps_go_key (start : String) (fuel : Nat)
    (ihkey : ∀ (st : DepState) (n : String) (st' : DepState),
      (alookup st n).isSome →
      (n = start ∨ ∀ e ∈ getDeps st n, e.name ≠ start) →
      rec_deps fuel st n start = some st' →
      ∀ z e, e ∈ getDeps st' z → e.name = z → e ∈ getDeps st z) :
    ∀ (l : List ServiceDependency) (st : DepState) (name : String) (st' : DepState),
      (alookup st name).isSome →
      (∀ e ∈ l, e ∈ getDeps st name) →
      (name = start ∨ ∀ e ∈ getDeps st name, e.name ≠ start) →
      rec_deps_go (rec_deps fuel) name start st l = some st' →
      ∀ z e, e ∈ getDeps st' z → e.name = z → e ∈ getDeps st z := by
  intro l
  induction l with
  | nil =>
    intro st name st' _ _ _ h
    simp [rec_deps_go] at h
    rw [← h]
    intro z e he _
    exact he
  | cons dep rest ih =>
    intro st name st' hn hl hdisj h
    unfold rec_deps_go at h
    split at h
    · exact ih st name st' hn (fun e he => hl e (List.mem_cons_of_mem dep he)) hdisj h
    · split at h
      · exact ih st name st' hn (fun e he => hl e (List.mem_cons_of_mem dep he)) hdisj h
      · rename_i depDeps heq
        split at h
        · exact ih st name st' hn (fun e he => hl e (List.mem_cons_of_mem dep he)) hdisj h
        · rename_i hany
          split at h
          · exact absurd h (by simp)
          · rename_i hne _ _ st1 hr
            have hdomdep : (alookup st dep.name).isSome := by simp [heq]
            have hle1 : stateLe start st st1 :=
              rec_deps_stateLe start fuel st dep.name st1 hdomdep hr
            have hdepfree : ∀ e ∈ getDeps st dep.name, e.name ≠ start := by
              intro e he hcon
              have : depDeps.any (fun x => x.name = start) = true := by
                rw [List.any_eq_true]
                refine ⟨e, ?_, by simp [hcon]⟩
                simpa [getDeps, heq] using he
              simp [this] at hany
            have hdepfree1 : ∀ e ∈ getDeps st1 dep.name, e.name ≠ start :=
              hle1.2.2 dep.name hdepfree
            have hdepedge : ∃ e ∈ getDeps st name, e.name = dep.name :=
              ⟨dep, hl dep (List.mem_cons_self dep rest), rfl⟩
            have hkey1 := ihkey st dep.name st1 hdomdep (Or.inr hdepfree) hr
            have hStepA : ∀ z e,
                e ∈ getDeps (aupdate st1 name
                  (unionDeps (getDeps st1 name) (getDeps st1 dep.name))) z →
                e.name = z → e ∈ getDeps st z := by
              intro z e he hez
              by_cases hz : z = name
              · subst hz
                rw [getDeps_aupdate_self] at he
                rcases mem_unionDeps_elim e _ _ he with h1 | h1
                · exact hkey1 z e h1 hez
                · rcases hdisj with hstart | hnamefree
                  · exfalso
                    exact hdepfree1 e h1 (by rw [hez, hstart])
                  · exfalso
                    have hreach := rec_deps_reach start fuel st dep.name st1 hdomdep hr
                      dep.name e h1
                    have hnone : rec_deps fuel st dep.name start = none := by
                      rcases hreach with hmem | hgp
                      · exact rec_deps_cycle_none start fuel st dep.name z
                          (fun hx => hne hx.symm) hdomdep hn hdepfree hnamefree
                          ⟨e, hmem, hez⟩ (GoodPath.direct hdepedge)
                      · rw [hez] at hgp
                        cases hgp with
                        | direct he2 =>
                          exact rec_deps_cycle_none start fuel st dep.name z
                            (fun hx => hne hx.symm) hdomdep hn hdepfree hnamefree
                            he2 (GoodPath.direct hdepedge)
                        | @step _ v _ he2 hvd hvdom hvfree tail =>
                          exact rec_deps_cycle_none start fuel st dep.name v
                            hvd hdomdep hvdom hdepfree hvfree he2
                            (gp_append tail hn hnamefree (GoodPath.direct hdepedge))
                    rw [hnone] at hr
                    cases hr
              · rw [getDeps_aupdate_other _ _ _ _ hz] at he
                exact hkey1 z e he hez
            have hasn1 : (alookup st1 name).isSome := (hle1.2.1 name).mpr hn
            have hle2 : stateLe start st
                (aupdate st1 name (unionDeps (getDeps st1 name) (getDeps st1 dep.name))) :=
              stateLe_trans hle1
                (aupdate_union_stateLe start st1 name dep.name hasn1 hdepfree1)
            have hih := ih (aupdate st1 name
                (unionDeps (getDeps st1 name) (getDeps st1 dep.name))) name st'
              (by simp [alookup_aupdate_self])
              (fun e he => hle2.1 name e (hl e (List.mem_cons_of_mem dep he)))
              (by
                rcases hdisj with hstart | hnamefree
                · exact Or.inl hstart
                · exact Or.inr (hle2.2.2 name hnamefree))
              h
            intro z e he hez
            exact hStepA z e (hih z e he hez) hez

theorem rec_deps_key (start : String) :
    ∀ (fuel : Nat) (st : DepState) (n : String) (st' : DepState),
      (alookup st n).isSome →
      (n = start ∨ ∀ e ∈ getDeps st n, e.name ≠ start) →
      rec_deps fuel st n start = some st' →
      ∀ z e, e ∈ getDeps st' z → e.name = z → e ∈ getDeps st z := by
  intro fuel
  induction fuel with
  | zero => intro st n st' _ _ h; simp [rec_deps] at h
  | succ fuel ih =>
    intro st n st' hn hdisj h
    unfold rec_deps at h
    exact rec_deps_go_key start fuel ih _ st n st' hn (fun e he => he) hdisj h


theorem alookup_isSome_iff {α : Type} (l : List (String × α)) (k : String) :
    (alookup l k).isSome ↔ k ∈ l.map Prod.fst := by
  induction l with
  | nil => simp [alookup]
  | cons kv rest ih =>
    obtain ⟨k', v⟩ := kv
    unfold alookup
    by_cases hk : k' = k
    · subst hk
      simp
    · simp [hk, ih, Ne.symm hk]

theorem seed_deps_keys :
    ∀ (services : List (String × Val)) (st : DepState),
      seed_deps services = Except.ok st →
      st.map Prod.fst = services.map Prod.fst := by
  intro services
  induction services with
  | nil =>
    intro st h
    simp [seed_deps] at h
    subst h
    rfl
  | cons p rest ih =>
    intro st h
    obtain ⟨n, srv⟩ := p
    unfold seed_deps at h
    split at h
    · split at h
      · simp at h
      · split at h
        · simp at h
        · split at h
          · simp at h
          · rename_i st0 hs
            simp only [Except.ok.injEq] at h
            rw [← h]
            simp [ih st0 hs]
    · simp at h

theorem expand_all_no_new_self :
    ∀ (names : List String) (fuel : Nat) (st st' : DepState),
      (∀ m ∈ names, (alookup st m).isSome) →
      expand_all fuel st names = some st' →
      ∀ z e, e ∈ getDeps st' z → e.name = z → e ∈ getDeps st z := by
  intro names
  induction names with
  | nil =>
    intro fuel st st' _ h
    simp [expand_all] at h
    rw [← h]
    intro z e he _
    exact he
  | cons n rest ih =>
    intro fuel st st' hdom h
    unfold expand_all at h
    split at h
    · exact absurd h (by simp)
    · rename_i st1 hr
      have hn : (alookup st n).isSome := hdom n (List.mem_cons_self n rest)
      have hkey := rec_deps_key n fuel st n st1 hn (Or.inl rfl) hr
      have hle := rec_deps_stateLe n fuel st n st1 hn hr
      have hdom1 : ∀ m ∈ rest, (alookup st1 m).isSome := by
        intro m hm
        exact (hle.2.1 m).mpr (hdom m (List.mem_cons_of_mem n hm))
      have hih := ih fuel st1 st' hdom1 h
      intro z e he hez
      exact hkey z e (hih z e he hez) hez


/-- C1 counterexample: a service that directly lists itself in
`depends_on` keeps the self-edge through `flat_deps`: the builder never
removes the seeded self-edge, it only skips it during expansion. -/
theorem flat_deps_self_dep_counterexample :
    flat_deps 9 [("A", Val.map [("depends_on",
        Val.map [("A", Val.map [("condition", Val.str "service_started")])])])] =
      Except.ok (some
        [("A", [ServiceDependency.mk "A" ServiceDependencyCondition.running])]) ∧
    ∃ e ∈ getDeps
        [("A", [ServiceDependency.mk "A" ServiceDependencyCondition.running])] "A",
      e.name = "A" :=
  ⟨rfl, ⟨ServiceDependency.mk "A" ServiceDependencyCondition.running,
    by simp [getDeps, alookup], rfl⟩⟩

/-- C1 (amended): the transitive expansion of `flat_deps` adds no
self-edge — after the builder runs, any edge in a service's `_deps`
naming the service itself was already among that service's directly
seeded edges, so a service that does not directly list itself has no
self-edge; and for the three-service chain A->B->C->A the computation
terminates, A's closure holds edges to B and C, and no service's closure
contains an edge naming the service itself. -/
theorem flat_deps_no_new_self_edges :
    (∀ (services : List (String × Val)) (fuel : Nat) (st st' : DepState),
      seed_deps services = Except.ok st →
      expand_all fuel st (services.map Prod.fst) = some st' →
      ∀ z e, e ∈ getDeps st' z → e.name = z → e ∈ getDeps st z) ∧
    (flat_deps 9 chain_services = Except.ok (some chain_result) ∧
     getDeps chain_result "A" =
       [ServiceDependency.mk "B" ServiceDependencyCondition.running,
        ServiceDependency.mk "C" ServiceDependencyCondition.running] ∧
     (∀ e ∈ getDeps chain_result "A", e.name ≠ "A") ∧
     (∀ e ∈ getDeps chain_result "B", e.name ≠ "B") ∧
     (∀ e ∈ getDeps chain_result "C", e.name ≠ "C")) := by
  refine ⟨?_, rfl, rfl, by decide, by decide, by decide⟩
  intro services fuel st st' hseed hexp
  have hdom : ∀ m ∈ services.map Prod.fst, (alookup st m).isSome := by
    intro m hm
    rw [alookup_isSome_iff, seed_deps_keys services st hseed]
    exact hm
  exact expand_all_no_new_self (services.map Prod.fst) fuel st st' hdom hexp

/-- Witness for `flat_deps_no_new_self_edges` at the chain example. -/
theorem flat_deps_no_new_self_edges_witness :
    seed_deps chain_services = Except.ok chain_seed ∧
    expand_all 9 chain_seed (chain_services.map Prod.fst) = some chain_result ∧
    (∀ z e, e ∈ getDeps chain_result z → e.name = z → e ∈ getDeps chain_seed z) :=
  ⟨rfl, rfl,
    flat_deps_no_new_self_edges.1 chain_services 9 chain_seed chain_result rfl rfl⟩

end PodmanCompose
